import Mathlib

/-!
Verification of the local-search driver of `network_opt` (`network_opt_local.cpp`)
against its natural-language specification.

The driver (`LocalSolver`) is embedded shallowly: C++ in-place mutation of the
tree becomes pure tree-rebuilding, the global `expandables` vector of node
pointers becomes a list of root-relative paths, and calls to `rand()` consume an
explicit stream of naturals (`List ℕ`).  Collaborators declared in the missing
header `network_opt.h` (tree node, tabulator interface, multiset coder,
evaluator) are modelled from the specification where noted.
-/

namespace NetworkOpt

/-- Tree node (spec §3; `Node` of `network_opt.h`, used throughout
`network_opt_local.cpp`): slot indices still to be placed (`values`), slot
indices collapsed into this node when it became an expandable (`hidden`), and
the ordered children. -/
inductive Node : Type where
  | mk (values : List ℕ) (hidden : List ℕ) (children : List Node)

/-- The `values` field of a node. -/
def Node.values : Node → List ℕ
  | .mk v _ _ => v

/-- The `hidden` field of a node. -/
def Node.hidden : Node → List ℕ
  | .mk _ h _ => h

/-- The `children` field of a node. -/
def Node.children : Node → List Node
  | .mk _ _ c => c

instance : Inhabited Node := ⟨.mk [] [] []⟩

/-- Next value of the pseudorandom stream (models one `rand()` call). -/
def rhead : List ℕ → ℕ
  | [] => 0
  | r :: _ => r

/-- Remainder of the pseudorandom stream after one `rand()` call. -/
def rtail : List ℕ → List ℕ
  | [] => []
  | _ :: rs => rs

/-- Error kinds of the spec (§7) plus two kinds forced by the embedding:
`NullTabulator` models the dereference of a NULL `tabulator` pointer
(`network_opt_local.cpp:68` when `main` was given `t = 0` at line 129), and
`OutOfFuel` models the unbounded recursion/looping that the C++ permits
(`randomly_expand` can recurse forever under an adversarial `rand`, and the
improvement loop has no a-priori bound), which the embedding cuts with fuel. -/
inductive ErrorKind where
  | ArgParse
  | TabulatorMiss
  | InvalidProblem
  | NullTabulator
  | OutOfFuel
deriving DecidableEq, Repr

/-- Modelled from the spec: the tabulator collaborator interface (§4.6), which
lives in the missing header `network_opt.h`.  `m` is the table arity,
`lookup` the `lookup_table` keyed by the multiset code of a hidden sequence
(the multiset coder of §4.7 is modelled as the coercion `List ℕ → Multiset ℕ`,
which is exactly insertion-order independence), and `bsearch`/`lsearch` the
whole-tree re-optimisation queries `binary_search`/`linear_search`. -/
structure Tab where
  m : ℕ
  lookup : Multiset ℕ → Option (List (ℚ × Node))
  bsearch : Node → List ℕ → List ℕ → Node
  lsearch : Node → List ℕ → List ℕ → List ℕ → List ℕ → Node × Node

/-- Replace the `i`-th element of a list of nodes by `f` of it (helper for the
in-place child mutation of the C++). Out-of-range indices leave the list
unchanged. -/
def updateChild : List Node → ℕ → (Node → Node) → List Node
  | [], _, _ => []
  | c :: cs, 0, f => f c :: cs
  | c :: cs, n + 1, f => c :: updateChild cs n f

/-- The slot-distribution loop of `randomly_expand`
(`network_opt_local.cpp:78-84`): for each value draw `idx` uniformly in
`0..|children|`; if `idx = |children|` append a fresh child; push the value
into child `idx`. -/
def distribute : List ℕ → List ℕ → List Node → List Node × List ℕ
  | rng, [], children => (children, rng)
  | rng, v :: vs, children =>
    let idx := rhead rng % (children.length + 1)
    let children' :=
      if idx = children.length then children ++ [Node.mk [v] [] []]
      else updateChild children idx (fun c => Node.mk (c.values ++ [v]) c.hidden c.children)
    distribute (rtail rng) vs children'

mutual

/-- `LocalSolver::randomly_expand` (`network_opt_local.cpp:67-87`), with fuel
for the recursion depth.  Result: the rebuilt node, the root-relative paths of
the expandables pushed onto `expandables` (in push order), and the remaining
random stream.  On a missing (or empty) `lookup_table` entry the C++ has no
valid behaviour (`entry.size()` is 0 and `rand() % 0` divides by zero); per
spec §4.2 this is the fatal `TabulatorMiss`. -/
def randomly_expand (tab : Tab) : ℕ → Node → List ℕ →
    Except ErrorKind (Node × List (List ℕ) × List ℕ)
  | 0, _, _ => .error .OutOfFuel
  | fuel + 1, node, rng =>
    if node.values.length ≤ tab.m then
      match tab.lookup (node.values : Multiset ℕ) with
      | none => .error .TabulatorMiss
      | some entry =>
        match entry[rhead rng % entry.length]? with
        | none => .error .TabulatorMiss
        | some pr => .ok (Node.mk [] node.values [pr.2], [[]], rtail rng)
    else
      match distribute rng node.values node.children with
      | (children', rng₁) =>
        match expandList tab fuel 0 children' rng₁ with
        | .error e => .error e
        | .ok (kids, exps, rng₂) => .ok (Node.mk [] node.hidden kids, exps, rng₂)

/-- The child-recursion loop of `randomly_expand`
(`network_opt_local.cpp:86`): expand each child in order, prefixing each
returned expandable path with the child's position `i`. -/
def expandList (tab : Tab) : ℕ → ℕ → List Node → List ℕ →
    Except ErrorKind (List Node × List (List ℕ) × List ℕ)
  | 0, _, _, _ => .error .OutOfFuel
  | _ + 1, _, [], rng => .ok ([], [], rng)
  | fuel + 1, i, c :: cs, rng =>
    match randomly_expand tab fuel c rng with
    | .error e => .error e
    | .ok (c', pc, rng₁) =>
      match expandList tab fuel (i + 1) cs rng₁ with
      | .error e => .error e
      | .ok (cs', pcs, rng₂) => .ok (c' :: cs', pc.map (fun p => i :: p) ++ pcs, rng₂)

end

mutual

/-- The multiset of problem slots a tree accounts for (spec §8, property 1):
an expandable (non-empty `hidden`) is an opaque bag of its `hidden` slots (its
child is the tabulator-owned subnetwork and is not traversed); any other node
contributes its own `values` plus its children's bags. -/
def slotBag : Node → Multiset ℕ
  | .mk values hidden children =>
    if hidden = [] then (values : Multiset ℕ) + slotBagList children
    else (hidden : Multiset ℕ)

/-- Sum of `slotBag` over a list of children. -/
def slotBagList : List Node → Multiset ℕ
  | [] => 0
  | c :: cs => slotBag c + slotBagList cs

end

mutual

/-- Modelled from the spec: the network evaluator's resistance computation
(§4.5), which lives in the missing header `network_opt.h`.  `kind = true` is a
series node, `false` parallel; kinds alternate with depth.  A true leaf
`[v]` has resistance `series v`; an expandable's resistance is that of its
single tabulator child; series sums children, parallel combines them with
successive `a*b/(a+b)`. -/
def evalR (series : ℕ → ℚ) : Bool → Node → ℚ
  | kind, .mk values hidden children =>
    if hidden = [] then
      match children with
      | [] => (match values with | [v] => series v | _ => 0)
      | c :: cs =>
        let r := evalR series (!kind) c
        let rs := evalList series (!kind) cs
        if kind then r + rs.sum else rs.foldl (fun a b => a * b / (a + b)) r
    else
      match children with
      | [c] => evalR series kind c
      | _ => 0

/-- Resistances of a list of sibling nodes. -/
def evalList (series : ℕ → ℚ) : Bool → List Node → List ℚ
  | _, [] => []
  | kind, c :: cs => evalR series kind c :: evalList series kind cs

end

/-- Modelled from the spec: the evaluator's cost `|r − t| / t` (§4.5), the
whole tree being a series composition at the root. -/
def costOf (series : ℕ → ℚ) (target : ℚ) (t : Node) : ℚ :=
  |evalR series true t - target| / target

/-- The node reached from `t` by following child indices along `p`. -/
def nodeAt? : Node → List ℕ → Option Node
  | t, [] => some t
  | .mk _ _ children, i :: p =>
    match children[i]? with
    | none => none
    | some c => nodeAt? c p

/-- Rebuild `t` with the node at path `p` replaced by `f` of it. -/
def updateAt : Node → List ℕ → (Node → Node) → Node
  | t, [], f => f t
  | .mk values hidden children, i :: p, f =>
    .mk values hidden (updateChild children i (fun c => updateAt c p f))

/-- `expandable->children.clear()` at path `p` (`network_opt_local.cpp:96,103-104`). -/
def clearChildrenAt (t : Node) (p : List ℕ) : Node :=
  updateAt t p (fun n => Node.mk n.values n.hidden [])

/-- `expandable->children.push_back(node)` at path `p`
(`network_opt_local.cpp:99,108-109`). -/
def pushChildAt (t : Node) (p : List ℕ) (c : Node) : Node :=
  updateAt t p (fun n => Node.mk n.values n.hidden (n.children ++ [c]))

/-- The `hidden` sequence of the node at path `p` (what the C++ reads from the
`expandable` pointer). -/
def hiddenAt (t : Node) (p : List ℕ) : List ℕ :=
  ((nodeAt? t p).getD default).hidden

/-- The single-site substitution of `iteratively_improve`
(`network_opt_local.cpp:95-99`): clear the expandable's children, ask
`binary_search` against the whole (cleared) tree, push the returned
subnetwork. -/
def substOne (tab : Tab) (t : Node) (p : List ℕ) : Node :=
  let tc := clearChildrenAt t p
  pushChildAt tc p (tab.bsearch tc p (hiddenAt tc p))

/-- The two-site substitution of `iteratively_improve`
(`network_opt_local.cpp:101-109`): clear both expandables' children, ask
`linear_search`, push the returned pair. -/
def substTwo (tab : Tab) (t : Node) (p₀ p₁ : List ℕ) : Node :=
  let tc := clearChildrenAt (clearChildrenAt t p₀) p₁
  let nodes := tab.lsearch tc p₀ p₁ (hiddenAt tc p₀) (hiddenAt tc p₁)
  pushChildAt (pushChildAt tc p₀ nodes.1) p₁ nodes.2

/-- One iteration of the `iteratively_improve` loop body before the cost test
(`network_opt_local.cpp:92-110`): draw two indices into `expandables` with two
`rand()` calls; equal indices take the `binary_search` branch, distinct ones
the `linear_search` branch. -/
def improveStep (tab : Tab) (exps : List (List ℕ)) (t : Node) (rng : List ℕ) :
    Node × List ℕ :=
  let i₀ := rhead rng % exps.length
  let i₁ := rhead (rtail rng) % exps.length
  let rng₂ := rtail (rtail rng)
  if i₀ = i₁ then (substOne tab t (exps.getD i₀ []), rng₂)
  else (substTwo tab t (exps.getD i₀ []) (exps.getD i₁ []), rng₂)

/-- The `while (true)` loop of `iteratively_improve`
(`network_opt_local.cpp:91-114`) with fuel: substitute, re-evaluate, stop as
soon as `best_cost ≤ cost`, else record the strictly lower cost and continue.
Returns the final tree, the remaining random stream, and the list of costs
evaluated at line 111, one per executed iteration. -/
def improveAux (tab : Tab) (cost : Node → ℚ) (exps : List (List ℕ)) :
    ℕ → ℚ → Node → List ℕ → Option (Node × List ℕ × List ℚ)
  | 0, _, _, _ => none
  | fuel + 1, best, t, rng =>
    let s := improveStep tab exps t rng
    let c := cost s.1
    if best ≤ c then some (s.1, s.2, [c])
    else
      match improveAux tab cost exps fuel c s.1 s.2 with
      | none => none
      | some (tf, rf, cs) => some (tf, rf, c :: cs)

/-- `LocalSolver::iteratively_improve` (`network_opt_local.cpp:89-115`): the
initial `best_cost` is the evaluated cost of the network (line 90). -/
def iteratively_improve (tab : Tab) (cost : Node → ℚ) (exps : List (List ℕ))
    (fuel : ℕ) (t : Node) (rng : List ℕ) : Option (Node × List ℕ × List ℚ) :=
  improveAux tab cost exps fuel (cost t) t rng

/-- The replacement test of `solve` (`network_opt_local.cpp:41`):
`best_network == NULL || best_cost > cost`. -/
def newBest (best : Option (ℚ × Node)) (c : ℚ) : Bool :=
  match best with
  | none => true
  | some (b, _) => b > c

/-- The best-record update of `solve` (`network_opt_local.cpp:41-44`): replace
the record exactly when `newBest` holds, otherwise keep it. -/
def updateBest (best : Option (ℚ × Node)) (c : ℚ) (t : Node) : Option (ℚ × Node) :=
  if newBest best c then some (c, t) else best

/-- The sequence of best-record updates produced by a list of finished
restarts, each contributing its evaluated cost and final tree. -/
def bestFold (rs : List (ℚ × Node)) (best : Option (ℚ × Node)) : Option (ℚ × Node) :=
  rs.foldl (fun acc p => updateBest acc p.1 p.2) best

/-- Modelled from the spec: `random_shuffle` over the slot permutation
(§4.4 step 1; the C++ calls the library `random_shuffle` at
`network_opt_local.cpp:35`), as a draw-without-replacement shuffle consuming
the random stream. -/
def shuffleGo : ℕ → List ℕ → List ℕ → List ℕ × List ℕ
  | 0, l, rng => (l, rng)
  | fuel + 1, l, rng =>
    match l with
    | [] => ([], rng)
    | _ :: _ =>
      let i := rhead rng % l.length
      let x := l.getD i 0
      match shuffleGo fuel (l.eraseIdx i) (rtail rng) with
      | (xs, rng₂) => (x :: xs, rng₂)

/-- Shuffle a list using the random stream. -/
def shuffle (rng l : List ℕ) : List ℕ × List ℕ :=
  shuffleGo l.length l rng

/-- One restart of `solve` (`network_opt_local.cpp:32-40`): shuffle the slot
permutation `[0..n)`, build the flat root, `randomly_expand` it, run
`iteratively_improve`, and re-evaluate the final tree's cost (line 40). -/
def restartRun (tab : Tab) (cost : Node → ℚ) (fuel n : ℕ) (rng : List ℕ) :
    Except ErrorKind (ℚ × Node × List ℕ) :=
  match shuffle rng (List.range n) with
  | (vals, rng₁) =>
    match randomly_expand tab fuel (Node.mk vals [] []) rng₁ with
    | .error e => .error e
    | .ok (t, exps, rng₂) =>
      match iteratively_improve tab cost exps fuel t rng₂ with
      | none => .error .OutOfFuel
      | some (tf, rng₃, _) => .ok (cost tf, tf, rng₃)

/-- The outer restart loop of `solve` (`network_opt_local.cpp:31-52`), run for
a given number of restarts: each restart updates the best record by
`updateBest`, and a restart that replaces the record emits its cost (the
"new best" output line of lines 47-49).  Returns the emitted costs in order,
and the error that aborted the run, if any. -/
def runRestarts (tab : Tab) (cost : Node → ℚ) (fuel n : ℕ) :
    ℕ → Option (ℚ × Node) → List ℕ → List ℚ × Option ErrorKind
  | 0, _, _ => ([], none)
  | k + 1, best, rng =>
    match restartRun tab cost fuel n rng with
    | .error e => ([], some e)
    | .ok (c, t, rng') =>
      match runRestarts tab cost fuel n k (updateBest best c t) rng' with
      | (out, err) => (if newBest best c then c :: out else out, err)

/-- The constant seed of `main` (`network_opt_local.cpp:121`, `srand(2022)`). -/
def initialSeed : ℕ := 2022

/-- The observable output trace of the process: `main` seeds the pseudorandom
source once with `initialSeed` (`network_opt_local.cpp:121`) and the solver
then emits one cost per new best.  `g` maps a seed to the resulting random
stream (the C library's `rand` is outside the source). -/
def programTrace (g : ℕ → List ℕ) (tab : Tab) (series : ℕ → ℚ) (target : ℚ)
    (fuel n restarts : ℕ) : List ℚ × Option ErrorKind :=
  runRestarts tab (costOf series target) fuel n restarts none (g initialSeed)

/-- `main` (`network_opt_local.cpp:120-131`): no argument validation is
performed; `t = 0` leaves `tabulator == NULL` (line 129) and the first call of
`randomly_expand` then dereferences the null pointer at line 68, which the
embedding records as the fatal `NullTabulator` — it happens inside the search,
not at startup.  `mkT` stands for `new Tabulator(t)` plus `tabulate`. -/
def mainModel (mkT : ℕ → Tab) (series : ℕ → ℚ) (target : ℚ) (g : ℕ → List ℕ)
    (fuel restarts n t : ℕ) : List ℚ × Option ErrorKind :=
  if t = 0 then ([], some .NullTabulator)
  else programTrace g (mkT t) series target fuel n restarts

/-- A node as `randomly_expand` receives it along the recursion: nothing
collapsed yet, no children yet, and a non-empty batch of slots to place
(spec §4.2: "Empty `values` at entry is forbidden"). -/
def Fresh (c : Node) : Prop :=
  c.hidden = [] ∧ c.children = [] ∧ c.values ≠ []

/-- Multiset of all slot values still to be placed across a list of nodes. -/
def valsSum (cs : List Node) : Multiset ℕ :=
  (cs.map fun c => (c.values : Multiset ℕ)).sum

lemma valsSum_nil : valsSum [] = 0 := rfl

lemma valsSum_cons (c : Node) (cs : List Node) :
    valsSum (c :: cs) = (c.values : Multiset ℕ) + valsSum cs := by
  simp [valsSum]

lemma slotBag_mk (v h : List ℕ) (ch : List Node) :
    slotBag (Node.mk v h ch) =
      if h = [] then (v : Multiset ℕ) + slotBagList ch else (h : Multiset ℕ) := rfl

lemma slotBagList_nil : slotBagList [] = 0 := rfl

lemma slotBagList_cons (c : Node) (cs : List Node) :
    slotBagList (c :: cs) = slotBag c + slotBagList cs := rfl

lemma values_mk (v h : List ℕ) (ch : List Node) : (Node.mk v h ch).values = v := rfl

lemma hidden_mk (v h : List ℕ) (ch : List Node) : (Node.mk v h ch).hidden = h := rfl

lemma children_mk (v h : List ℕ) (ch : List Node) : (Node.mk v h ch).children = ch := rfl

lemma length_updateChild (l : List Node) (i : ℕ) (f : Node → Node) :
    (updateChild l i f).length = l.length := by
  induction l generalizing i with
  | nil => rfl
  | cons c cs ih =>
    cases i with
    | zero => rfl
    | succ n => simp [updateChild, ih]

lemma mem_updateChild (l : List Node) (i : ℕ) (f : Node → Node) :
    ∀ c ∈ updateChild l i f, c ∈ l ∨ ∃ x ∈ l, c = f x := by
  induction l generalizing i with
  | nil => intro c hc; simp [updateChild] at hc
  | cons a as ih =>
    cases i with
    | zero =>
      intro c hc
      rcases List.mem_cons.mp hc with h | h
      · exact Or.inr ⟨a, List.mem_cons_self a as, h⟩
      · exact Or.inl (List.mem_cons_of_mem a h)
    | succ n =>
      intro c hc
      rcases List.mem_cons.mp hc with h | h
      · exact Or.inl (h ▸ List.mem_cons_self a as)
      · rcases ih n c h with h' | ⟨x, hx, hfx⟩
        · exact Or.inl (List.mem_cons_of_mem a h')
        · exact Or.inr ⟨x, List.mem_cons_of_mem a hx, hfx⟩

lemma valsSum_updateChild (l : List Node) (i v : ℕ) (hi : i < l.length) :
    valsSum (updateChild l i
      (fun c => Node.mk (c.values ++ [v]) c.hidden c.children)) = valsSum l + {v} := by
  induction l generalizing i with
  | nil => simp at hi
  | cons a as ih =>
    cases i with
    | zero =>
      simp only [updateChild, valsSum_cons, values_mk]
      simp [add_assoc, add_comm, add_left_comm]
    | succ n =>
      have hn : n < as.length := by simpa using hi
      simp only [updateChild, valsSum_cons, ih n hn]
      simp [add_assoc, add_comm, add_left_comm]

lemma valsSum_append_fresh (l : List Node) (v : ℕ) :
    valsSum (l ++ [Node.mk [v] [] []]) = valsSum l + {v} := by
  induction l with
  | nil => simp [valsSum_cons, valsSum_nil]; rfl
  | cons a as ih => simp only [List.cons_append, valsSum_cons, ih, add_assoc]

/-- Slot conservation of the distribution loop: distributing `vs` into
`children` moves exactly the multiset of `vs` into the children's `values`. -/
lemma distribute_valsSum : ∀ (vs rng : List ℕ) (children : List Node),
    valsSum (distribute rng vs children).1 = valsSum children + (vs : Multiset ℕ) := by
  intro vs
  induction vs with
  | nil => intro rng children; simp [distribute]
  | cons v vs ih =>
    intro rng children
    rw [distribute]
    set idx := rhead rng % (children.length + 1) with hidx
    by_cases h : idx = children.length
    · rw [if_pos h, ih, valsSum_append_fresh, ← Multiset.cons_coe, ← Multiset.singleton_add]
      abel
    · have hlt : idx < children.length := by
        have : idx < children.length + 1 := by
          rw [hidx]; exact Nat.mod_lt _ (Nat.succ_pos _)
        omega
      rw [if_neg h, ih, valsSum_updateChild _ _ _ hlt, ← Multiset.cons_coe,
        ← Multiset.singleton_add]
      abel

/-- The distribution loop only creates fresh children and only appends to
existing children's `values`: every resulting child is `Fresh` when the
starting children are. -/
lemma distribute_fresh : ∀ (vs rng : List ℕ) (children : List Node),
    (∀ c ∈ children, Fresh c) → ∀ c ∈ (distribute rng vs children).1, Fresh c := by
  intro vs
  induction vs with
  | nil => intro rng children h; simpa [distribute] using h
  | cons v vs ih =>
    intro rng children h
    rw [distribute]
    set idx := rhead rng % (children.length + 1) with hidx
    by_cases hc : idx = children.length
    · rw [if_pos hc]
      refine ih _ _ ?_
      intro c hmem
      rcases List.mem_append.mp hmem with hm | hm
      · exact h c hm
      · rcases List.mem_singleton.mp hm with rfl
        exact ⟨rfl, rfl, by simp [Node.values]⟩
    · rw [if_neg hc]
      refine ih _ _ ?_
      intro c hmem
      rcases mem_updateChild _ _ _ c hmem with hm | ⟨x, hx, rfl⟩
      · exact h c hm
      · rcases h x hx with ⟨h1, h2, h3⟩
        exact ⟨h1, h2, by simp [Node.values]⟩

/-- Distributing a non-empty batch always yields at least one child. -/
lemma distribute_ne_nil : ∀ (vs rng : List ℕ) (children : List Node),
    children ≠ [] ∨ vs ≠ [] → (distribute rng vs children).1 ≠ [] := by
  intro vs
  induction vs with
  | nil =>
    intro rng children h
    rcases h with h | h
    · simpa [distribute] using h
    · exact absurd rfl h
  | cons v vs ih =>
    intro rng children _
    rw [distribute]
    set idx := rhead rng % (children.length + 1) with hidx
    by_cases hc : idx = children.length
    · rw [if_pos hc]
      exact ih _ _ (Or.inl (by simp))
    · rw [if_neg hc]
      refine ih _ _ (Or.inl ?_)
      intro hnil
      have hlen := length_updateChild children idx
        (fun c => Node.mk (c.values ++ [v]) c.hidden c.children)
      rw [hnil] at hlen
      have hzero : children.length = 0 := by simpa using hlen.symm
      apply hc
      rw [hidx, hzero]
      exact Nat.mod_one _

/-- Joint specification of `randomly_expand` and its child loop: on success
from a fresh node, the produced tree accounts for exactly the multiset of the
node's `values` (spec §8 property 1), and at least one expandable is pushed. -/
lemma expand_spec (tab : Tab) : ∀ fuel : ℕ,
    (∀ (node : Node) (rng : List ℕ) (t : Node) (exps : List (List ℕ)) (rng₂ : List ℕ),
      node.hidden = [] → node.children = [] → node.values ≠ [] →
      randomly_expand tab fuel node rng = .ok (t, exps, rng₂) →
      slotBag t = (node.values : Multiset ℕ) ∧ exps ≠ []) ∧
    (∀ (i : ℕ) (cs : List Node) (rng : List ℕ) (cs₂ : List Node)
      (exps : List (List ℕ)) (rng₂ : List ℕ),
      (∀ c ∈ cs, Fresh c) →
      expandList tab fuel i cs rng = .ok (cs₂, exps, rng₂) →
      slotBagList cs₂ = valsSum cs ∧ (cs ≠ [] → exps ≠ [])) := by
  intro fuel
  induction fuel with
  | zero =>
    constructor
    · intro node rng t exps rng₂ _ _ _ h
      simp [randomly_expand] at h
    · intro i cs rng cs₂ exps rng₂ _ h
      simp [expandList] at h
  | succ fuel ih =>
    obtain ⟨ih1, ih2⟩ := ih
    constructor
    · intro node rng t exps rng₂ hh hc hv h
      obtain ⟨v, hd, ch⟩ := node
      simp only [Node.hidden] at hh
      simp only [Node.children] at hc
      simp only [Node.values] at hv ⊢
      subst hh; subst hc
      rw [randomly_expand] at h
      simp only [values_mk, hidden_mk, children_mk] at h
      by_cases hm : v.length ≤ tab.m
      · rw [if_pos hm] at h
        cases hlk : tab.lookup (v : Multiset ℕ) with
        | none => rw [hlk] at h; simp at h
        | some entry =>
          simp only [hlk] at h
          cases hg : entry[rhead rng % entry.length]? with
          | none => simp [hg] at h
          | some pr =>
            simp only [hg, Except.ok.injEq, Prod.mk.injEq] at h
            obtain ⟨ht, hexps, _⟩ := h
            subst ht; subst hexps
            exact ⟨by rw [slotBag_mk, if_neg hv], by simp⟩
      · rw [if_neg hm] at h
        rcases hdist : distribute rng v [] with ⟨children', rng₁⟩
        rw [hdist] at h
        cases hel : expandList tab fuel 0 children' rng₁ with
        | error e => rw [hel] at h; simp at h
        | ok res =>
          obtain ⟨kids, exps', rng₂'⟩ := res
          rw [hel] at h
          simp only [Except.ok.injEq, Prod.mk.injEq] at h
          obtain ⟨ht, hexps, _⟩ := h
          subst ht; subst hexps
          have hfresh : ∀ c ∈ children', Fresh c := by
            have := distribute_fresh v rng [] (by intro c hc; simp at hc)
            rw [hdist] at this
            exact this
          obtain ⟨hs, hne⟩ := ih2 0 children' rng₁ kids exps' rng₂' hfresh hel
          have hsum : valsSum children' = (v : Multiset ℕ) := by
            have := distribute_valsSum v rng []
            rw [hdist] at this
            simpa [valsSum_nil] using this
          have hcne : children' ≠ [] := by
            have := distribute_ne_nil v rng [] (Or.inr hv)
            rw [hdist] at this
            exact this
          refine ⟨?_, hne hcne⟩
          rw [slotBag_mk, if_pos rfl, hs, hsum]
          simp
    · intro i cs rng cs₂ exps rng₂ hfresh h
      cases cs with
      | nil =>
        rw [expandList] at h
        simp only [Except.ok.injEq, Prod.mk.injEq] at h
        obtain ⟨h1, h2, _⟩ := h
        subst h1; subst h2
        exact ⟨rfl, fun hx => absurd rfl hx⟩
      | cons c cs' =>
        rw [expandList] at h
        cases hre : randomly_expand tab fuel c rng with
        | error e => rw [hre] at h; simp at h
        | ok res =>
          obtain ⟨c', pc, rng₁⟩ := res
          simp only [hre] at h
          cases hel : expandList tab fuel (i + 1) cs' rng₁ with
          | error e => simp [hel] at h
          | ok res₂ =>
            obtain ⟨cs'', pcs, rng₂'⟩ := res₂
            simp only [hel, Except.ok.injEq, Prod.mk.injEq] at h
            obtain ⟨h1, h2, _⟩ := h
            subst h1; subst h2
            obtain ⟨hch, hcc, hcv⟩ := hfresh c (List.mem_cons_self c cs')
            obtain ⟨hb1, hb2⟩ := ih1 c rng c' pc rng₁ hch hcc hcv hre
            obtain ⟨hl1, _⟩ := ih2 (i + 1) cs' rng₁ cs'' pcs rng₂'
              (fun x hx => hfresh x (List.mem_cons_of_mem c hx)) hel
            constructor
            · rw [slotBagList_cons, hb1, hl1, valsSum_cons]
            · intro _
              intro habs
              rcases List.append_eq_nil.mp habs with ⟨hmap, _⟩
              exact hb2 (List.map_eq_nil_iff.mp hmap)

/-- Single-leaf subnetwork over slot `v` (a convenient concrete tabulator
entry for witnesses). -/
def leafN (v : ℕ) : Node := Node.mk [v] [] []

/-- A concrete tabulator whose every key has the single candidate `leafN 0`. -/
def tabConst : Tab :=
  ⟨1, fun _ => some [(0, leafN 0)], fun _ _ _ => default, fun _ _ _ _ _ => (default, default)⟩

/-- A concrete tabulator whose lookup table is empty. -/
def tabNone : Tab :=
  ⟨5, fun _ => none, fun _ _ _ => default, fun _ _ _ _ _ => (default, default)⟩

/-- C4: slot conservation.  For every N ≥ 1, expanding a root whose `values`
is a permutation of `[0..N)` (solve's construction, `network_opt_local.cpp:
32-38`) yields a tree whose multiset of accounted slots — `hidden` of the
expandables (opaque bags) plus `values` of any remaining leaves, which is what
`slotBag` collects — is exactly the multiset `{0, …, N-1}`. -/
theorem slot_conservation (tab : Tab) (n fuel : ℕ) (vals rng : List ℕ)
    (t : Node) (exps : List (List ℕ)) (rng₂ : List ℕ)
    (hn : 1 ≤ n) (hperm : vals.Perm (List.range n))
    (h : randomly_expand tab fuel (Node.mk vals [] []) rng = .ok (t, exps, rng₂)) :
    slotBag t = ((List.range n : List ℕ) : Multiset ℕ) := by
  have hv : vals ≠ [] := by
    intro hnil
    have hlen := hperm.length_eq
    rw [hnil, List.length_range] at hlen
    simp at hlen
    omega
  have hmain := (expand_spec tab fuel).1 (Node.mk vals [] []) rng t exps rng₂ rfl rfl
    (by simpa [Node.values] using hv) h
  have h1 : slotBag t = (vals : Multiset ℕ) := by simpa [Node.values] using hmain.1
  rw [h1]
  exact Multiset.coe_eq_coe.mpr hperm

/-- Witness for C4 at N = 1 with a concrete tabulator. -/
theorem slot_conservation_witness :
    slotBag (Node.mk [] [0] [leafN 0]) = ((List.range 1 : List ℕ) : Multiset ℕ) :=
  slot_conservation tabConst 1 2 [0] [] (Node.mk [] [0] [leafN 0]) [[]] []
    (by decide) (by decide) rfl

/-- C10: expanding a fresh node with non-empty `values` pushes at least one
expandable, so the modulus `expandables.size()` used to draw indices at
`network_opt_local.cpp:92-93` is positive. -/
theorem expandables_nonempty (tab : Tab) (fuel : ℕ) (node : Node) (rng : List ℕ)
    (t : Node) (exps : List (List ℕ)) (rng₂ : List ℕ)
    (hh : node.hidden = []) (hc : node.children = []) (hv : node.values ≠ [])
    (h : randomly_expand tab fuel node rng = .ok (t, exps, rng₂)) :
    exps ≠ [] ∧ 0 < exps.length := by
  have hmain := (expand_spec tab fuel).1 node rng t exps rng₂ hh hc hv h
  exact ⟨hmain.2, List.length_pos.mpr hmain.2⟩

/-- Witness for C10 at a concrete expansion. -/
theorem expandables_nonempty_witness :
    ([[]] : List (List ℕ)) ≠ [] ∧ 0 < ([[]] : List (List ℕ)).length :=
  expandables_nonempty tabConst 2 (Node.mk [0] [] []) [] (Node.mk [] [0] [leafN 0])
    [[]] [] rfl rfl (by simp [Node.values]) rfl

/-- Unfolding of the `randomly_expand` base case with a present, non-empty
table entry: the node becomes an expandable with the drawn candidate as its
single child. -/
lemma expand_base (tab : Tab) (node : Node) (rng : List ℕ) (fuel : ℕ)
    (entry : List (ℚ × Node)) (hm : node.values.length ≤ tab.m)
    (hlk : tab.lookup (node.values : Multiset ℕ) = some entry) (hne : entry ≠ []) :
    ∃ pr ∈ entry, randomly_expand tab (fuel + 1) node rng =
      .ok (Node.mk [] node.values [pr.2], [[]], rtail rng) := by
  have hlen : 0 < entry.length := List.length_pos.mpr hne
  have hidx : rhead rng % entry.length < entry.length := Nat.mod_lt _ hlen
  refine ⟨entry[rhead rng % entry.length], List.getElem_mem hidx, ?_⟩
  rw [randomly_expand, if_pos hm]
  simp only [hlk, List.getElem?_eq_getElem hidx]

/-- C5: base-case postcondition of `randomly_expand`
(`network_opt_local.cpp:67-77`).  When `|values| ≤ m` and the key (the
multiset code of `values`) has a non-empty table entry, the node is pushed
onto `expandables` (path `[]`), its `hidden` becomes the former `values`, its
`values` becomes empty, and it gets exactly one child, an element of the
candidate list for that key. -/
theorem expand_base_case (tab : Tab) (node : Node) (rng : List ℕ) (fuel : ℕ)
    (entry : List (ℚ × Node)) (hm : node.values.length ≤ tab.m)
    (hlk : tab.lookup (node.values : Multiset ℕ) = some entry) (hne : entry ≠ []) :
    ∃ pr ∈ entry, randomly_expand tab (fuel + 1) node rng =
      .ok (Node.mk [] node.values [pr.2], [[]], rtail rng) :=
  expand_base tab node rng fuel entry hm hlk hne

/-- Witness for C5 at a concrete node and tabulator. -/
theorem expand_base_case_witness :
    ∃ pr ∈ [((0 : ℚ), leafN 0)], randomly_expand tabConst (0 + 1) (Node.mk [0] [] []) [] =
      .ok (Node.mk [] (Node.mk [0] [] []).values [pr.2], [[]], rtail []) :=
  expand_base_case tabConst (Node.mk [0] [] []) [] 0 [((0 : ℚ), leafN 0)]
    (by simp [Node.values, tabConst]) rfl (List.cons_ne_nil _ _)

/-- C3: when `|values| ≤ m` but the encoded key has no entry in the lookup
table, expansion fails with the fatal `TabulatorMiss`
(`network_opt_local.cpp:72-76`; the C++ reads the entry unchecked and
`rand() % entry.size()` divides by zero, modelled as the spec's fatal
`TabulatorMiss`). -/
theorem tabulator_miss (tab : Tab) (node : Node) (rng : List ℕ) (fuel : ℕ)
    (hm : node.values.length ≤ tab.m)
    (hlk : tab.lookup (node.values : Multiset ℕ) = none) :
    randomly_expand tab (fuel + 1) node rng = .error .TabulatorMiss := by
  rw [randomly_expand, if_pos hm]
  simp only [hlk]

/-- Witness for C3 at a concrete node and empty-table tabulator. -/
theorem tabulator_miss_witness :
    randomly_expand tabNone (0 + 1) (Node.mk [0] [] []) [] = .error .TabulatorMiss :=
  tabulator_miss tabNone (Node.mk [0] [] []) [] 0 (by simp [Node.values, tabNone]) rfl

/-- Cost contract of a single improvement substitution: under the
`binary_search`/`linear_search` contract (spec §4.6, the returned subnetworks
minimise the whole tree's cost with the rest fixed, the incumbent being among
the candidates), one loop-body substitution never increases the evaluated
cost. -/
lemma improveStep_cost_le (tab : Tab) (cost : Node → ℚ) (exps : List (List ℕ))
    (Hb : ∀ (t : Node) (p : List ℕ), cost (substOne tab t p) ≤ cost t)
    (Hl : ∀ (t : Node) (p q : List ℕ), cost (substTwo tab t p q) ≤ cost t) :
    ∀ (t : Node) (rng : List ℕ), cost (improveStep tab exps t rng).1 ≤ cost t := by
  intro t rng
  rw [improveStep]
  by_cases h : rhead rng % exps.length = rhead (rtail rng) % exps.length
  · rw [if_pos h]
    exact Hb _ _
  · rw [if_neg h]
    exact Hl _ _ _

/-- Shape of a finished `iteratively_improve` run: the evaluated costs are a
strictly decreasing run followed by one final evaluation that is neither
below the last tracked best (the loop stops, line 112) nor above it (by the
search contract). -/
lemma improveAux_shape (tab : Tab) (cost : Node → ℚ) (exps : List (List ℕ))
    (Hstep : ∀ (t : Node) (rng : List ℕ), cost (improveStep tab exps t rng).1 ≤ cost t) :
    ∀ (fuel : ℕ) (t : Node) (rng : List ℕ) (tf : Node) (rf : List ℕ) (cs : List ℚ),
      improveAux tab cost exps fuel (cost t) t rng = some (tf, rf, cs) →
      ∃ pre c, cs = pre ++ [c] ∧
        List.Chain' (fun a b => b < a) (cost t :: pre) ∧
        (cost t :: pre).getLast (List.cons_ne_nil _ _) ≤ c ∧
        c ≤ (cost t :: pre).getLast (List.cons_ne_nil _ _) := by
  intro fuel
  induction fuel with
  | zero =>
    intro t rng tf rf cs h
    simp [improveAux] at h
  | succ fuel ih =>
    intro t rng tf rf cs h
    rw [improveAux] at h
    by_cases hbr : cost t ≤ cost (improveStep tab exps t rng).1
    · rw [if_pos hbr] at h
      simp only [Option.some.injEq, Prod.mk.injEq] at h
      obtain ⟨_, _, h3⟩ := h
      subst h3
      exact ⟨[], cost (improveStep tab exps t rng).1, rfl, List.chain'_singleton _,
        hbr, Hstep t rng⟩
    · rw [if_neg hbr] at h
      have hlt : cost (improveStep tab exps t rng).1 < cost t := not_le.mp hbr
      cases hrec : improveAux tab cost exps fuel (cost (improveStep tab exps t rng).1)
          (improveStep tab exps t rng).1 (improveStep tab exps t rng).2 with
      | none => rw [hrec] at h; simp at h
      | some res =>
        obtain ⟨tf', rf', cs'⟩ := res
        rw [hrec] at h
        simp only [Option.some.injEq, Prod.mk.injEq] at h
        obtain ⟨h1, h2, h3⟩ := h
        subst h3
        obtain ⟨pre', c', hcs', hchain', hle1, hle2⟩ :=
          ih (improveStep tab exps t rng).1 (improveStep tab exps t rng).2 tf' rf' cs' hrec
        refine ⟨cost (improveStep tab exps t rng).1 :: pre', c', by rw [hcs', List.cons_append], ?_, ?_, ?_⟩
        · exact List.chain'_cons.mpr ⟨hlt, hchain'⟩
        · rw [List.getLast_cons (List.cons_ne_nil _ _)]
          exact hle1
        · rw [List.getLast_cons (List.cons_ne_nil _ _)]
          exact hle2

/-- Termination of the improvement loop: when the cost function takes values
in the finite set `S` (the spec's "the sequence of strict decreases is
finite", §4.3), fuel exceeding the number of values below the current cost
suffices for the loop to stop on its own. -/
lemma improveAux_terminates (tab : Tab) (cost : Node → ℚ) (exps : List (List ℕ))
    (S : Finset ℚ) (Hfin : ∀ t : Node, cost t ∈ S) :
    ∀ (fuel : ℕ) (t : Node) (rng : List ℕ),
      (S.filter (fun q => q < cost t)).card < fuel →
      ∃ res, improveAux tab cost exps fuel (cost t) t rng = some res := by
  intro fuel
  induction fuel with
  | zero => intro t rng h; omega
  | succ fuel ih =>
    intro t rng hcard
    rw [improveAux]
    by_cases hbr : cost t ≤ cost (improveStep tab exps t rng).1
    · rw [if_pos hbr]
      exact ⟨_, rfl⟩
    · rw [if_neg hbr]
      have hlt : cost (improveStep tab exps t rng).1 < cost t := not_le.mp hbr
      have hsub : (S.filter (fun q => q < cost (improveStep tab exps t rng).1)).card < fuel := by
        have hss : S.filter (fun q => q < cost (improveStep tab exps t rng).1) ⊂
            S.filter (fun q => q < cost t) := by
          refine Finset.ssubset_iff_of_subset ?_ |>.mpr ?_
          · intro x hx
            rcases Finset.mem_filter.mp hx with ⟨hxS, hxlt⟩
            exact Finset.mem_filter.mpr ⟨hxS, lt_trans hxlt hlt⟩
          · exact ⟨cost (improveStep tab exps t rng).1,
              Finset.mem_filter.mpr ⟨Hfin _, hlt⟩,
              fun hmem => lt_irrefl _ (Finset.mem_filter.mp hmem).2⟩
        have := Finset.card_lt_card hss
        omega
      obtain ⟨⟨tf, rf, cs⟩, hres⟩ := ih (improveStep tab exps t rng).1
        (improveStep tab exps t rng).2 hsub
      exact ⟨(tf, rf, cost (improveStep tab exps t rng).1 :: cs), by rw [hres]⟩

/-- C1: under the tabulator's search contract and finitely many reachable
cost values, `iteratively_improve` terminates with a cost trace
`cost t₀ :: pre ++ [c]` that strictly decreases at every non-terminal step
and stops exactly at the first non-improving evaluation (which, by the
contract, equals the last tracked best, so the whole trace is
non-increasing). -/
theorem iteratively_improve_spec (tab : Tab) (cost : Node → ℚ) (exps : List (List ℕ))
    (t₀ : Node) (rng : List ℕ) (S : Finset ℚ)
    (Hb : ∀ (t : Node) (p : List ℕ), cost (substOne tab t p) ≤ cost t)
    (Hl : ∀ (t : Node) (p q : List ℕ), cost (substTwo tab t p q) ≤ cost t)
    (Hfin : ∀ t : Node, cost t ∈ S) :
    ∃ tf rf cs, iteratively_improve tab cost exps (S.card + 1) t₀ rng = some (tf, rf, cs) ∧
      ∃ pre c, cs = pre ++ [c] ∧
        List.Chain' (fun a b => b < a) (cost t₀ :: pre) ∧
        (cost t₀ :: pre).getLast (List.cons_ne_nil _ _) ≤ c ∧
        c ≤ (cost t₀ :: pre).getLast (List.cons_ne_nil _ _) := by
  have Hstep := improveStep_cost_le tab cost exps Hb Hl
  have hcard : (S.filter (fun q => q < cost t₀)).card < S.card + 1 :=
    lt_of_le_of_lt (Finset.card_filter_le _ _) (Nat.lt_succ_self _)
  obtain ⟨⟨tf, rf, cs⟩, hres⟩ := improveAux_terminates tab cost exps S Hfin
    (S.card + 1) t₀ rng hcard
  exact ⟨tf, rf, cs, hres,
    improveAux_shape tab cost exps Hstep (S.card + 1) t₀ rng tf rf cs hres⟩

/-- The constant-zero cost function (a degenerate evaluator used by concrete
witnesses). -/
def costZero : Node → ℚ := fun _ => 0

/-- Witness for C1 with a concrete tabulator, cost function and tree. -/
theorem iteratively_improve_spec_witness :
    ∃ tf rf cs, iteratively_improve tabConst costZero [[]]
        (({0} : Finset ℚ).card + 1) (Node.mk [] [] []) [] = some (tf, rf, cs) ∧
      ∃ pre c, cs = pre ++ [c] ∧
        List.Chain' (fun a b => b < a) (costZero (Node.mk [] [] []) :: pre) ∧
        (costZero (Node.mk [] [] []) :: pre).getLast (List.cons_ne_nil _ _) ≤ c ∧
        c ≤ (costZero (Node.mk [] [] []) :: pre).getLast (List.cons_ne_nil _ _) :=
  iteratively_improve_spec tabConst costZero [[]] (Node.mk [] [] []) [] {0}
    (fun _ _ => le_refl 0) (fun _ _ _ => le_refl 0) (fun _ => Finset.mem_singleton_self 0)

/-- A finished improvement loop executed at least one iteration: the cost
trace is never empty (the loop body runs before the first termination test,
`network_opt_local.cpp:92-112`). -/
lemma improveAux_ne_nil (tab : Tab) (cost : Node → ℚ) (exps : List (List ℕ)) :
    ∀ (fuel : ℕ) (best : ℚ) (t : Node) (rng : List ℕ) (tf : Node) (rf : List ℕ)
      (cs : List ℚ), improveAux tab cost exps fuel best t rng = some (tf, rf, cs) →
      cs ≠ [] := by
  intro fuel
  induction fuel with
  | zero => intro best t rng tf rf cs h; simp [improveAux] at h
  | succ fuel ih =>
    intro best t rng tf rf cs h
    rw [improveAux] at h
    by_cases hbr : best ≤ cost (improveStep tab exps t rng).1
    · rw [if_pos hbr] at h
      simp only [Option.some.injEq, Prod.mk.injEq] at h
      obtain ⟨_, _, h3⟩ := h
      subst h3
      simp
    · rw [if_neg hbr] at h
      cases hrec : improveAux tab cost exps fuel (cost (improveStep tab exps t rng).1)
          (improveStep tab exps t rng).1 (improveStep tab exps t rng).2 with
      | none => rw [hrec] at h; simp at h
      | some res =>
        obtain ⟨tf', rf', cs'⟩ := res
        rw [hrec] at h
        simp only [Option.some.injEq, Prod.mk.injEq] at h
        obtain ⟨_, _, h3⟩ := h
        subst h3
        simp

/-- C9: a finished `iteratively_improve` run leaves the tree of the last
substitution in place (the terminating iteration's substitution is not
reverted): the final tree is an `improveStep` output, the cost `solve`
re-evaluates at line 40 equals the last cost evaluated inside the loop, and it
is above every lower bound of the observed costs (hence ≥ their minimum). -/
theorem improve_final_tree (tab : Tab) (cost : Node → ℚ) (exps : List (List ℕ))
    (fuel : ℕ) (best : ℚ) (t : Node) (rng : List ℕ) (tf : Node) (rf : List ℕ)
    (cs : List ℚ)
    (h : improveAux tab cost exps fuel best t rng = some (tf, rf, cs)) :
    ∃ hne : cs ≠ [], cost tf = cs.getLast hne ∧
      (∃ tp rp, (improveStep tab exps tp rp).1 = tf) ∧
      ∀ l : ℚ, (∀ x ∈ cs, l ≤ x) → l ≤ cost tf := by
  induction fuel generalizing best t rng cs with
  | zero => simp [improveAux] at h
  | succ fuel ih =>
    rw [improveAux] at h
    by_cases hbr : best ≤ cost (improveStep tab exps t rng).1
    · rw [if_pos hbr] at h
      simp only [Option.some.injEq, Prod.mk.injEq] at h
      obtain ⟨h1, h2, h3⟩ := h
      subst h1; subst h3
      refine ⟨by simp, by simp, ⟨t, rng, rfl⟩, ?_⟩
      intro l hl
      exact hl _ (List.mem_singleton_self _)
    · rw [if_neg hbr] at h
      cases hrec : improveAux tab cost exps fuel (cost (improveStep tab exps t rng).1)
          (improveStep tab exps t rng).1 (improveStep tab exps t rng).2 with
      | none => rw [hrec] at h; simp at h
      | some res =>
        obtain ⟨tf', rf', cs'⟩ := res
        rw [hrec] at h
        simp only [Option.some.injEq, Prod.mk.injEq] at h
        obtain ⟨h1, h2, h3⟩ := h
        subst h1; subst h2; subst h3
        obtain ⟨hne', hlast', hstep', hmin'⟩ := ih _ _ _ _ hrec
        refine ⟨by simp, ?_, hstep', ?_⟩
        · rw [List.getLast_cons hne']
          exact hlast'
        · intro l hl
          exact hmin' l (fun x hx => hl x (List.mem_cons_of_mem _ hx))

/-- Witness for C9 at a concrete one-iteration run. -/
theorem improve_final_tree_witness :
    ∃ hne : ([(0 : ℚ)] ≠ []),
      costZero (Node.mk [] [] [Node.mk [] [] []]) = [(0 : ℚ)].getLast hne ∧
      (∃ tp rp, (improveStep tabConst [[]] tp rp).1 = Node.mk [] [] [Node.mk [] [] []]) ∧
      ∀ l : ℚ, (∀ x ∈ [(0 : ℚ)], l ≤ x) → l ≤ costZero (Node.mk [] [] [Node.mk [] [] []]) :=
  improve_final_tree tabConst costZero [[]] 1 0 (Node.mk [] [] []) []
    (Node.mk [] [] [Node.mk [] [] []]) [] [0] rfl

/-- The best record after a list of finished restarts never has a larger cost
than it started with. -/
lemma bestFold_mono : ∀ (rs : List (ℚ × Node)) (b : ℚ) (bn : Node),
    ∃ b2 bn2, bestFold rs (some (b, bn)) = some (b2, bn2) ∧ b2 ≤ b := by
  intro rs
  induction rs with
  | nil => exact fun b bn => ⟨b, bn, rfl, le_refl b⟩
  | cons p ps ih =>
    intro b bn
    by_cases hb : b > p.1
    · have hstep : updateBest (some (b, bn)) p.1 p.2 = some (p.1, p.2) := by
        simp [updateBest, newBest, hb]
      obtain ⟨b2, bn2, heq, hle⟩ := ih p.1 p.2
      refine ⟨b2, bn2, ?_, le_trans hle (le_of_lt hb)⟩
      rw [bestFold] at heq ⊢
      simp only [List.foldl_cons, hstep]
      exact heq
    · have hstep : updateBest (some (b, bn)) p.1 p.2 = some (b, bn) := by
        simp [updateBest, newBest, hb]
      obtain ⟨b2, bn2, heq, hle⟩ := ih b bn
      refine ⟨b2, bn2, ?_, hle⟩
      rw [bestFold] at heq ⊢
      simp only [List.foldl_cons, hstep]
      exact heq

/-- C2: the best record of `solve` (`network_opt_local.cpp:41-44`) is replaced
exactly when there is no best yet or the new cost is strictly lower; an equal
cost keeps the incumbent; and across any sequence of restarts the recorded
best cost never increases. -/
theorem best_record_update :
    (∀ (c : ℚ) (t : Node), updateBest none c t = some (c, t)) ∧
    (∀ (b : ℚ) (bn : Node) (c : ℚ) (t : Node), c < b →
      updateBest (some (b, bn)) c t = some (c, t)) ∧
    (∀ (b : ℚ) (bn : Node) (c : ℚ) (t : Node), b ≤ c →
      updateBest (some (b, bn)) c t = some (b, bn)) ∧
    (∀ (b : ℚ) (bn : Node) (t : Node), updateBest (some (b, bn)) b t = some (b, bn)) ∧
    (∀ (rs : List (ℚ × Node)) (b : ℚ) (bn : Node) (b2 : ℚ) (bn2 : Node),
      bestFold rs (some (b, bn)) = some (b2, bn2) → b2 ≤ b) := by
  refine ⟨fun c t => rfl, ?_, ?_, ?_, ?_⟩
  · intro b bn c t hlt
    simp [updateBest, newBest, hlt]
  · intro b bn c t hle
    simp [updateBest, newBest, not_lt.mpr hle]
  · intro b bn t
    simp [updateBest, newBest]
  · intro rs b bn b2 bn2 hfold
    obtain ⟨b3, bn3, heq, hle⟩ := bestFold_mono rs b bn
    rw [heq] at hfold
    simp only [Option.some.injEq, Prod.mk.injEq] at hfold
    obtain ⟨h1, _⟩ := hfold
    rw [← h1]
    exact hle

/-- Witness for C2: an equal-cost restart does not replace the incumbent. -/
theorem best_record_update_witness :
    updateBest (some ((1 : ℚ), leafN 0)) 1 (leafN 1) = some (1, leafN 0) :=
  best_record_update.2.2.2.1 1 (leafN 0) (leafN 1)

/-- The constant-one series table (used by concrete witnesses). -/
def seriesOne : ℕ → ℚ := fun _ => 1

lemma evalR_leaf (series : ℕ → ℚ) (kind : Bool) (v : ℕ) :
    evalR series kind (Node.mk [v] [] []) = series v := rfl

lemma evalR_expandable (series : ℕ → ℚ) (kind : Bool) (vals hs : List ℕ) (hv : ℕ)
    (c : Node) : evalR series kind (Node.mk vals (hv :: hs) [c]) = evalR series kind c := rfl

/-- C6 counterexample: for N = 1 the root itself becomes an expandable
(`network_opt_local.cpp:67-76`: `|values| = 1 ≤ m` puts the root on
`expandables`), so the expandable set is NOT empty as the claim states — it
contains exactly the root path. -/
theorem n1_expandable_set_not_empty :
    randomly_expand tabConst 2 (Node.mk [0] [] []) [] =
      .ok (Node.mk [] [0] [leafN 0], [[]], []) ∧ ([[]] : List (List ℕ)) ≠ [] :=
  ⟨rfl, by simp⟩

/-- C6 (amended): for N = 1 the constructed tree is an expandable root whose
single child is a tabulator candidate for the key of `{0}`; the tree's
resistance is `series 0` (given the tabulator's candidates for that key have
that resistance); the expandable set has exactly one element (not zero); and
`iteratively_improve` always performs at least one substitution before its
first termination test (it cannot exit with no replacement step). -/
theorem n1_construction (tab : Tab) (fuel : ℕ) (rng : List ℕ) (series : ℕ → ℚ)
    (vals : List ℕ) (hperm : vals.Perm (List.range 1))
    (entry : List (ℚ × Node)) (hm : 1 ≤ tab.m)
    (hlk : tab.lookup (([0] : List ℕ) : Multiset ℕ) = some entry) (hne : entry ≠ [])
    (hres : ∀ pr ∈ entry, evalR series true pr.2 = series 0)
    (t : Node) (exps : List (List ℕ)) (rng₂ : List ℕ)
    (h : randomly_expand tab (fuel + 1) (Node.mk vals [] []) rng = .ok (t, exps, rng₂)) :
    exps = [[]] ∧ exps.length = 1 ∧ evalR series true t = series 0 ∧
    (∀ (cost : Node → ℚ) (fuel₂ : ℕ) (best : ℚ) (t₀ : Node) (rng₀ : List ℕ)
      (tf : Node) (rf : List ℕ) (cs : List ℚ),
      improveAux tab cost exps fuel₂ best t₀ rng₀ = some (tf, rf, cs) → cs ≠ []) := by
  have hv : vals = [0] := by
    have h1 : List.range 1 = [0] := rfl
    rw [h1] at hperm
    exact List.perm_singleton.mp hperm
  subst hv
  obtain ⟨pr, hpr, heq⟩ := expand_base tab (Node.mk [0] [] []) rng fuel entry
    (by simpa [Node.values] using hm) (by simpa [Node.values] using hlk) hne
  rw [heq] at h
  simp only [Except.ok.injEq, Prod.mk.injEq] at h
  obtain ⟨ht, hexps, _⟩ := h
  subst ht; subst hexps
  refine ⟨rfl, rfl, ?_, ?_⟩
  · simp only [values_mk]
    rw [evalR_expandable]
    exact hres pr hpr
  · intro cost fuel₂ best t₀ rng₀ tf rf cs hrun
    exact improveAux_ne_nil tab cost _ fuel₂ best t₀ rng₀ tf rf cs hrun

/-- Witness for the amended C6 at a concrete tabulator and series. -/
theorem n1_construction_witness :
    ([[]] : List (List ℕ)) = [[]] ∧ ([[]] : List (List ℕ)).length = 1 ∧
      evalR seriesOne true (Node.mk [] [0] [leafN 0]) = seriesOne 0 ∧
      (∀ (cost : Node → ℚ) (fuel₂ : ℕ) (best : ℚ) (t₀ : Node) (rng₀ : List ℕ)
        (tf : Node) (rf : List ℕ) (cs : List ℚ),
        improveAux tabConst cost [[]] fuel₂ best t₀ rng₀ = some (tf, rf, cs) → cs ≠ []) :=
  n1_construction tabConst 1 [] seriesOne [0] (by decide) [((0 : ℚ), leafN 0)]
    (by decide) rfl (List.cons_ne_nil _ _)
    (by
      intro pr hpr
      rw [List.mem_singleton.mp hpr]
      rfl)
    (Node.mk [] [0] [leafN 0]) [[]] [] rfl

/-- C7 counterexample: with `t = 0` (tabulator arity `m = 0`) the run does not
fail with `InvalidProblem` — `main` performs no validation
(`network_opt_local.cpp:120-131`) and the failure is the null-tabulator
dereference inside the first restart. -/
theorem main_no_invalid_problem :
    (mainModel (fun _ => tabConst) seriesOne 1 (fun _ => []) 1 1 1 0).2 ≠
      some ErrorKind.InvalidProblem := by
  decide

/-- C7 (amended): `main` validates nothing at startup.  With `m = 0` the
solver dereferences the NULL tabulator during the first restart's expansion
(`network_opt_local.cpp:68`), a fatal crash modelled as `NullTabulator`; with
`N = 0` (and a table without the empty key) the first expansion fails with
`TabulatorMiss`.  No `InvalidProblem` error exists in the code. -/
theorem main_no_validation (mkT : ℕ → Tab) (series : ℕ → ℚ) (target : ℚ)
    (g : ℕ → List ℕ) (fuel restarts n : ℕ) :
    (mainModel mkT series target g fuel restarts n 0 =
      ([], some ErrorKind.NullTabulator)) ∧
    (∀ (t fuel₂ restarts₂ : ℕ), t ≠ 0 →
      (mkT t).lookup (([] : List ℕ) : Multiset ℕ) = none →
      mainModel mkT series target g (fuel₂ + 1) (restarts₂ + 1) 0 t =
        ([], some ErrorKind.TabulatorMiss)) := by
  constructor
  · rfl
  · intro t fuel₂ restarts₂ ht hlk
    rw [mainModel, if_neg ht]
    have hexp : randomly_expand (mkT t) (fuel₂ + 1) (Node.mk [] [] [])
        (g initialSeed) = .error .TabulatorMiss := by
      rw [randomly_expand, if_pos (by simp [Node.values])]
      simp only [values_mk, hlk]
    have hrr : restartRun (mkT t) (costOf series target) (fuel₂ + 1) 0
        (g initialSeed) = .error .TabulatorMiss := by
      rw [restartRun]
      simp only [List.range_zero, shuffle, List.length_nil, shuffleGo, hexp]
    rw [programTrace, runRestarts]
    simp only [hrr]

/-- Witness for the amended C7 at concrete arguments. -/
theorem main_no_validation_witness :
    (mainModel (fun _ => tabNone) seriesOne 1 (fun _ => []) 3 2 5 0 =
      ([], some ErrorKind.NullTabulator)) ∧
    (∀ (t fuel₂ restarts₂ : ℕ), t ≠ 0 →
      tabNone.lookup (([] : List ℕ) : Multiset ℕ) = none →
      mainModel (fun _ => tabNone) seriesOne 1 (fun _ => []) (fuel₂ + 1)
        (restarts₂ + 1) 0 t = ([], some ErrorKind.TabulatorMiss)) :=
  main_no_validation (fun _ => tabNone) seriesOne 1 (fun _ => []) 3 2 5

/-- C8: determinism.  The seed is the fixed constant 2022
(`network_opt_local.cpp:121`), and the emitted new-best trace is a pure
function of (N, tabulator, series, target, fuel, restart count, random
source): two runs with identical inputs produce identical traces, and the
trace is exactly the restart fold started from the stream seeded with 2022. -/
theorem program_deterministic (g g2 : ℕ → List ℕ) (tab tab2 : Tab)
    (series series2 : ℕ → ℚ) (target target2 : ℚ)
    (fuel fuel2 n n2 restarts restarts2 : ℕ)
    (hg : g = g2) (htab : tab = tab2) (hs : series = series2)
    (ht : target = target2) (hf : fuel = fuel2) (hn : n = n2)
    (hr : restarts = restarts2) :
    initialSeed = 2022 ∧
    programTrace g tab series target fuel n restarts =
      programTrace g2 tab2 series2 target2 fuel2 n2 restarts2 ∧
    programTrace g tab series target fuel n restarts =
      runRestarts tab (costOf series target) fuel n restarts none (g 2022) := by
  subst hg; subst htab; subst hs; subst ht; subst hf; subst hn; subst hr
  exact ⟨rfl, rfl, rfl⟩

/-- Witness for C8: two textually separate runs with equal inputs agree. -/
theorem program_deterministic_witness :
    initialSeed = 2022 ∧
    programTrace (fun _ => []) tabConst seriesOne 1 1 1 1 =
      programTrace (fun _ => []) tabConst seriesOne 1 1 1 1 ∧
    programTrace (fun _ => []) tabConst seriesOne 1 1 1 1 =
      runRestarts tabConst (costOf seriesOne 1) 1 1 1 none ((fun _ => ([] : List ℕ)) 2022) :=
  program_deterministic (fun _ => []) (fun _ => []) tabConst tabConst seriesOne
    seriesOne 1 1 1 1 1 1 1 1 rfl rfl rfl rfl rfl rfl rfl

end NetworkOpt
